import Mathlib

/-!
Verification of the chip-volume estimation utilities
(`chip_estimates_utils.py`): the Monte Carlo simulation engine
`estimate_chip_sales`, the share normalizer `normalize_shares`, the
percentile aggregator `get_percentiles`, the compute-equivalence
converter `compute_h100_equivalents`, and the quarterly summary
`summarize_quarterly_by_chip`.

Modelling conventions:
* Python floats are modelled as exact rationals (`ℚ`).
* Python `dict`s keyed by strings are modelled as association lists
  (`Dict α := List (String × α)`) with Python's semantics: assignment to
  an existing key updates it in place, assignment to a fresh key appends
  it, lookup finds the (unique) entry.
* The caller-supplied sampling callbacks are stateful in Python (each
  invocation may draw fresh randomness).  They are modelled as functions
  that additionally receive the trial index, which captures every
  deterministic realization of the random draws: within one trial the
  engine calls revenue and shares once per quarter and price once per
  (quarter, version), exactly as in the source.
* Fallible operations (`KeyError`, `ZeroDivisionError`) return `Option`.
-/

/-- A Python `dict` with string keys: an association list whose keys are
kept unique by `dset`. -/
abbrev Dict (α : Type) := List (String × α)

/-- Python dict lookup `d[k]`: the value at the first entry with key `k`,
`none` when absent (`KeyError`). -/
def dget {α : Type} : Dict α → String → Option α
  | [], _ => none
  | kv :: rest, k => if kv.1 = k then some kv.2 else dget rest k

/-- Python `d.get(k, v0)`: lookup with a default. -/
def dgetD {α : Type} (d : Dict α) (k : String) (v0 : α) : α :=
  (dget d k).getD v0

/-- Python dict assignment `d[k] = v`: update the existing entry in place,
or append a fresh one. -/
def dset {α : Type} : Dict α → String → α → Dict α
  | [], k, v => [(k, v)]
  | kv :: rest, k, v => if kv.1 = k then (k, v) :: rest else kv :: dset rest k v

/-- Python dict comprehension `{k: f(k) for k in keys}`: insert the keys in
order (duplicate keys collapse, as in Python). -/
def dinit {α : Type} (keys : List String) (f : String → α) : Dict α :=
  keys.foldl (fun d k => dset d k (f k)) []

/-- The unit count computed by one iteration of the engine's innermost loop
for trial `t`, quarter `q`, version `v`: look the share up with default 0,
and short-circuit to 0 unless it is strictly positive. -/
def chip_value (sample_revenue : Nat → String → ℚ)
    (sample_shares : Nat → String → Dict ℚ)
    (sample_price : Nat → String → String → ℚ)
    (t : Nat) (q v : String) : ℚ :=
  let share := dgetD (sample_shares t q) v 0
  if 0 < share then sample_revenue t q * share / sample_price t q v else 0

/-- `estimate_chip_sales` from `chip_estimates_utils.py`: build the result
table `{quarter: {version: []}}`, then for each of `n_samples` trials and
each quarter draw one revenue and one share map, and append one unit-count
sample per version.  `(dget … ).getD []` stands for the source's
`results[quarter][version]` lookup, which always succeeds because the
comprehension created every key up front. -/
def estimate_chip_sales (quarters versions : List String)
    (sample_revenue : Nat → String → ℚ)
    (sample_shares : Nat → String → Dict ℚ)
    (sample_price : Nat → String → String → ℚ)
    (n_samples : Nat) : Dict (Dict (List ℚ)) :=
  let init : Dict (Dict (List ℚ)) := dinit quarters (fun _ => dinit versions (fun _ => []))
  (List.range n_samples).foldl
    (fun results t =>
      quarters.foldl
        (fun results quarter =>
          let revenue := sample_revenue t quarter
          let shares := sample_shares t quarter
          versions.foldl
            (fun results version =>
              let share := dgetD shares version 0
              let chips := if 0 < share then revenue * share / sample_price t quarter version
                           else 0
              let inner := (dget results quarter).getD []
              let cell := (dget inner version).getD []
              dset results quarter (dset inner version (cell ++ [chips])))
            results)
        results)
    init

/-- The result-table lookup `results[quarter][version]`. -/
def dget2 (d : Dict (Dict (List ℚ))) (q v : String) : Option (List ℚ) :=
  (dget d q).bind (fun inner => dget inner v)

/-- One innermost-loop update of a quarter's inner dict, as performed by
`estimate_chip_sales` for trial `t`, quarter `q`, version `v`: append the
trial's unit count to the version's cell.  Proof-side restatement of the
engine's loop body, used to factor the nested folds. -/
def version_update (sample_revenue : Nat → String → ℚ)
    (sample_shares : Nat → String → Dict ℚ)
    (sample_price : Nat → String → String → ℚ)
    (t : Nat) (q : String) (inner : Dict (List ℚ)) (v : String) : Dict (List ℚ) :=
  dset inner v (((dget inner v).getD []) ++
    [chip_value sample_revenue sample_shares sample_price t q v])

/-- The list of `(trial, quarter, version)` triples at which
`estimate_chip_sales` invokes `sample_price`: it mirrors the engine's
triple loop, in which the price sampler is called exactly when the drawn
share is strictly positive. -/
def price_calls (quarters versions : List String)
    (sample_shares : Nat → String → Dict ℚ)
    (n_samples : Nat) : List (Nat × String × String) :=
  (List.range n_samples).flatMap (fun t =>
    quarters.flatMap (fun q =>
      (versions.filter (fun v => 0 < dgetD (sample_shares t q) v 0)).map (fun v => (t, q, v))))

/-- Left-to-right fallible map over a list: a Python loop that builds a
list and raises at the first failing element. -/
def optionMap {α β : Type} (f : α → Option β) : List α → Option (List β)
  | [] => some []
  | a :: l => (f a).bind (fun b => (optionMap f l).map (fun bs => b :: bs))

/-- Left-to-right fallible fold over a list: a Python loop with an
accumulator that raises at the first failing step. -/
def optionFold {σ α : Type} (f : σ → α → Option σ) : σ → List α → Option σ
  | s, [] => some s
  | s, a :: l => (f s a).bind (fun s1 => optionFold f s1 l)

/-- `normalize_shares` from `chip_estimates_utils.py`: divide every raw
weight by the total.  Python raises `ZeroDivisionError` at the first
division when the total is 0, modelled by the per-entry guard (an empty
dict performs no division and is returned unchanged, as in the source). -/
def normalize_shares (raw_shares : Dict ℚ) : Option (Dict ℚ) :=
  let total := (raw_shares.map (fun kv => kv.2)).sum
  optionMap (fun kv => if total = 0 then none else some (kv.1, kv.2 / total)) raw_shares

/-- Insert a value into a sorted list of rationals, keeping it sorted. -/
def insort (x : ℚ) : List ℚ → List ℚ
  | [] => [x]
  | y :: ys => if x ≤ y then x :: y :: ys else y :: insort x ys

/-- Sort a list of rationals ascending (insertion sort). -/
def sortQ (l : List ℚ) : List ℚ := l.foldr insort []

/-- Modelled from the spec: `numpy.percentile` with its default linear
interpolation between order statistics (the numpy library itself is not
part of this repository).  For percentile `p` over the `n` sorted samples,
`h = p/100 * (n-1)` and the result interpolates between the neighbors at
positions `⌊h⌋` and `⌈h⌉`; `none` on an empty sample list (numpy raises). -/
def np_percentile (samples : List ℚ) (p : ℚ) : Option ℚ :=
  match samples with
  | [] => none
  | _ :: _ =>
    let s := sortQ samples
    let n := samples.length
    let h := p * ((n : ℚ) - 1) / 100
    let lo := s.getD (Int.toNat ⌊h⌋) 0
    let hi := s.getD (Int.toNat ⌈h⌉) 0
    some (lo + (h - (⌊h⌋ : ℚ)) * (hi - lo))

/-- `get_percentiles` from `chip_estimates_utils.py`: the dict
`{p: np.percentile(samples, p) for p in percentiles}`. -/
def get_percentiles (samples : List ℚ) (percentiles : List ℚ := [5, 50, 95]) :
    List (ℚ × Option ℚ) :=
  percentiles.map (fun p => (p, np_percentile samples p))

/-- An entry of the `chip_specs` dict: per-version metadata with a `tops`
throughput figure. -/
structure ChipSpec where
  tops : ℚ

/-- `compute_h100_equivalents` from `chip_estimates_utils.py`: scale each
count by `chip_specs[version]['tops'] / h100_tops`.  The spec lookup is a
Python subscript, so a version absent from `chip_specs` is a `KeyError`,
modelled by `Option`. -/
def compute_h100_equivalents (chip_counts : Dict ℚ) (chip_specs : Dict ChipSpec)
    (h100_tops : ℚ := 1979) : Option (Dict ℚ) :=
  optionMap (fun kv =>
    (dget chip_specs kv.1).map (fun spec => (kv.1, kv.2 * (spec.tops / h100_tops))))
    chip_counts

/-- One row of the DataFrame built by `summarize_quarterly_by_chip`:
the quarter, one formatted cell per chip type, and the Total cell. -/
structure SummaryRow where
  quarter : String
  cells : List (String × String)
  total : String

/-- The cell format `f"{p50} ({p5}-{p95})"` used by
`summarize_quarterly_by_chip`. -/
def summary_cell (fmt : ℚ → String) (p50 p5 p95 : ℚ) : String :=
  let a := fmt p50
  let b := fmt p5
  let c := fmt p95
  s!"{a} ({b}-{c})"

/-- The body of `summarize_quarterly_by_chip`'s per-quarter loop: start
from `total = np.zeros(n_samples)`, and for each chip type fetch its
array (`KeyError` when absent), add it elementwise into `total`
(numpy requires matching lengths), and format its cell — `"-"` when the
array sums to 0 or less.  Finally format the Total cell from the summed
array.  `fmt` is the `format_fn` parameter of the source. -/
def row_for_quarter (fmt : ℚ → String) (chip_types : List String) (n_samples : Nat)
    (inner : Dict (List ℚ)) (quarter : String) : Option SummaryRow :=
  (optionFold
    (fun (acc : List ℚ × List (String × String)) chip_type =>
      (dget inner chip_type).bind (fun arr =>
        if arr.length = n_samples then
          let total := List.zipWith (fun a b => a + b) acc.1 arr
          if 0 < arr.sum then
            (np_percentile arr 5).bind (fun p5 =>
            (np_percentile arr 50).bind (fun p50 =>
            (np_percentile arr 95).bind (fun p95 =>
            some (total, acc.2 ++ [(chip_type, summary_cell fmt p50 p5 p95)]))))
          else
            some (total, acc.2 ++ [(chip_type, "-")])
        else none))
    (List.replicate n_samples 0, []) chip_types)
  |>.bind (fun acc =>
    (np_percentile acc.1 5).bind (fun p5 =>
    (np_percentile acc.1 50).bind (fun p50 =>
    (np_percentile acc.1 95).bind (fun p95 =>
    some ⟨quarter, acc.2, summary_cell fmt p50 p5 p95⟩))))

/-- `summarize_quarterly_by_chip` from `chip_estimates_utils.py`: infer
the quarters, chip types and sample count from the result table (IndexError
on an empty table or an empty first inner dict, modelled by `none`), then
build one `SummaryRow` per quarter. -/
def summarize_quarterly_by_chip (results : Dict (Dict (List ℚ))) (fmt : ℚ → String) :
    Option (List SummaryRow) :=
  match results with
  | [] => none
  | (_, inner0) :: _ =>
    match inner0 with
    | [] => none
    | (_, samples0) :: _ =>
      let chip_types := inner0.map (fun kv => kv.1)
      let n_samples := samples0.length
      optionMap (fun quarter =>
        (dget results quarter).bind (fun inner =>
          row_for_quarter fmt chip_types n_samples inner quarter))
        (results.map (fun kv => kv.1))

/-- Spec-side definition for the order-of-operations claim: the
period-level Total array, the elementwise sum across the declared chip
types of the quarter's sample arrays, starting from the all-zero array of
length `n_samples`.  The Total column must be percentiles of this array. -/
def elementwise_total (inner : Dict (List ℚ)) (chip_types : List String)
    (n_samples : Nat) : List ℚ :=
  chip_types.foldl
    (fun tot c => List.zipWith (fun a b => a + b) tot ((dget inner c).getD []))
    (List.replicate n_samples 0)

/-! ### Association-list (Python dict) lemmas -/

theorem dget_dset {α : Type} (d : Dict α) (k k' : String) (v : α) :
    dget (dset d k v) k' = if k = k' then some v else dget d k' := by
  induction d with
  | nil => simp [dset, dget]
  | cons kv rest ih =>
    by_cases h1 : kv.1 = k
    · simp only [dset, if_pos h1, dget]
      split_ifs <;> simp_all [dget]
    · simp only [dset, if_neg h1, dget, ih]
      split_ifs <;> simp_all

theorem dset_dset {α : Type} (d : Dict α) (k : String) (a b : α) :
    dset (dset d k a) k b = dset d k b := by
  induction d with
  | nil => simp [dset]
  | cons kv rest ih =>
    by_cases h1 : kv.1 = k <;> simp [dset, h1, ih]

theorem dget_dinit_foldl {α : Type} (keys : List String) (f : String → α)
    (d0 : Dict α) (k : String) :
    dget (keys.foldl (fun d k1 => dset d k1 (f k1)) d0) k =
      if k ∈ keys then some (f k) else dget d0 k := by
  induction keys generalizing d0 with
  | nil => simp
  | cons k1 ks ih =>
    simp only [List.foldl_cons, ih, dget_dset, List.mem_cons]
    by_cases hk : k ∈ ks
    · simp [hk]
    · by_cases h1 : k1 = k
      · simp [hk, h1]
      · have h2 : ¬k = k1 := fun h => h1 h.symm
        simp [hk, h1, h2]

theorem dget_dinit {α : Type} (keys : List String) (f : String → α) (k : String) :
    dget (dinit keys f) k = if k ∈ keys then some (f k) else none := by
  simpa [dinit, dget] using dget_dinit_foldl keys f [] k

/-! ### Factoring the engine's nested loops -/

theorem estimate_chip_sales_eq (quarters versions : List String)
    (sr : Nat → String → ℚ) (ss : Nat → String → Dict ℚ)
    (sp : Nat → String → String → ℚ) (n : Nat) :
    estimate_chip_sales quarters versions sr ss sp n =
      (List.range n).foldl
        (fun results t =>
          quarters.foldl
            (fun results q =>
              versions.foldl
                (fun results v =>
                  dset results q (version_update sr ss sp t q ((dget results q).getD []) v))
                results)
            results)
        (dinit quarters (fun _ => dinit versions (fun _ => []))) := rfl

theorem versions_foldl_dget (sr : Nat → String → ℚ) (ss : Nat → String → Dict ℚ)
    (sp : Nat → String → String → ℚ) (t : Nat) (q : String) (vs : List String)
    (results : Dict (Dict (List ℚ))) (inner : Dict (List ℚ)) (k : String)
    (h : dget results q = some inner) :
    dget (vs.foldl
        (fun r v => dset r q (version_update sr ss sp t q ((dget r q).getD []) v))
        results) k
      = if q = k then some (vs.foldl (version_update sr ss sp t q) inner)
        else dget results k := by
  induction vs generalizing results inner with
  | nil =>
    simp only [List.foldl_nil]
    split_ifs with h1
    · subst h1; exact h
    · rfl
  | cons v vs ih =>
    simp only [List.foldl_cons]
    rw [h]
    simp only [Option.getD_some]
    rw [ih _ (version_update sr ss sp t q inner v) (by simp [dget_dset])]
    split_ifs with h1
    · rfl
    · rw [dget_dset]
      simp [h1]

theorem versions_foldl_untouched (sr : Nat → String → ℚ) (ss : Nat → String → Dict ℚ)
    (sp : Nat → String → String → ℚ) (t : Nat) (q1 : String) (vs : List String)
    (results : Dict (Dict (List ℚ))) (k : String) (hk : q1 ≠ k) :
    dget (vs.foldl
        (fun r v => dset r q1 (version_update sr ss sp t q1 ((dget r q1).getD []) v))
        results) k
      = dget results k := by
  induction vs generalizing results with
  | nil => rfl
  | cons v vs ih =>
    simp only [List.foldl_cons]
    rw [ih, dget_dset]
    simp [hk]

theorem version_update_foldl_dget (sr : Nat → String → ℚ) (ss : Nat → String → Dict ℚ)
    (sp : Nat → String → String → ℚ) (t : Nat) (q : String) (vs : List String)
    (inner : Dict (List ℚ)) (v : String) (hnd : vs.Nodup) :
    dget (vs.foldl (version_update sr ss sp t q) inner) v =
      if v ∈ vs then some (((dget inner v).getD []) ++ [chip_value sr ss sp t q v])
      else dget inner v := by
  induction vs generalizing inner with
  | nil => simp
  | cons v1 vs ih =>
    obtain ⟨hv1, hnd2⟩ := List.nodup_cons.mp hnd
    simp only [List.foldl_cons]
    rw [ih _ hnd2]
    by_cases hmem : v ∈ vs
    · have hne : ¬v1 = v := fun h => hv1 (h ▸ hmem)
      simp only [version_update, dget_dset, if_neg hne, hmem, if_true, List.mem_cons,
        or_true]
    · by_cases hv : v = v1
      · subst hv
        simp [version_update, dget_dset, hmem]
      · have hne : ¬v1 = v := fun h => hv h.symm
        simp [version_update, dget_dset, hmem, hv, hne]

theorem quarters_foldl_untouched (sr : Nat → String → ℚ) (ss : Nat → String → Dict ℚ)
    (sp : Nat → String → String → ℚ) (t : Nat) (versions : List String)
    (qs : List String) (q : String) (results : Dict (Dict (List ℚ))) (hq : q ∉ qs) :
    dget (qs.foldl
        (fun r q1 => versions.foldl
          (fun r v => dset r q1 (version_update sr ss sp t q1 ((dget r q1).getD []) v)) r)
        results) q
      = dget results q := by
  induction qs generalizing results with
  | nil => rfl
  | cons q1 qs ih =>
    have h1 : ¬q = q1 ∧ q ∉ qs := by simpa using hq
    simp only [List.foldl_cons]
    rw [ih _ h1.2, versions_foldl_untouched]
    exact fun h => h1.1 h.symm

theorem quarters_foldl_dget (sr : Nat → String → ℚ) (ss : Nat → String → Dict ℚ)
    (sp : Nat → String → String → ℚ) (t : Nat) (versions : List String)
    (qs : List String) (q : String) (results : Dict (Dict (List ℚ)))
    (inner : Dict (List ℚ)) (hq : q ∈ qs) (hnd : qs.Nodup)
    (h : dget results q = some inner) :
    dget (qs.foldl
        (fun r q1 => versions.foldl
          (fun r v => dset r q1 (version_update sr ss sp t q1 ((dget r q1).getD []) v)) r)
        results) q
      = some (versions.foldl (version_update sr ss sp t q) inner) := by
  induction qs generalizing results with
  | nil => cases hq
  | cons q1 qs ih =>
    obtain ⟨h1, hnd2⟩ := List.nodup_cons.mp hnd
    simp only [List.foldl_cons]
    by_cases hqq : q = q1
    · subst hqq
      rw [quarters_foldl_untouched sr ss sp t versions qs q _ h1]
      rw [versions_foldl_dget sr ss sp t q versions results inner q h]
      simp
    · have hmem : q ∈ qs := by
        rcases List.mem_cons.mp hq with h' | h'
        · exact absurd h' hqq
        · exact h'
      refine ih _ hmem hnd2 ?_
      rw [versions_foldl_untouched sr ss sp t q1 versions results q
        (fun h' => hqq h'.symm)]
      exact h

theorem estimate_chip_sales_cell (quarters versions : List String)
    (sr : Nat → String → ℚ) (ss : Nat → String → Dict ℚ)
    (sp : Nat → String → String → ℚ) (n : Nat) (q v : String)
    (hq : q ∈ quarters) (hv : v ∈ versions)
    (hndq : quarters.Nodup) (hndv : versions.Nodup) :
    dget2 (estimate_chip_sales quarters versions sr ss sp n) q v =
      some ((List.range n).map (fun t => chip_value sr ss sp t q v)) := by
  suffices h : ∃ inner, dget (estimate_chip_sales quarters versions sr ss sp n) q = some inner ∧
      dget inner v = some ((List.range n).map (fun t => chip_value sr ss sp t q v)) by
    obtain ⟨inner, h1, h2⟩ := h
    simp [dget2, h1, h2]
  rw [estimate_chip_sales_eq]
  induction n with
  | zero =>
    refine ⟨dinit versions (fun _ => []), ?_, ?_⟩
    · simp [dget_dinit, hq]
    · simp [dget_dinit, hv]
  | succ n ih =>
    obtain ⟨inner, h1, h2⟩ := ih
    rw [List.range_succ, List.foldl_append, List.foldl_cons, List.foldl_nil]
    refine ⟨versions.foldl (version_update sr ss sp n q) inner, ?_, ?_⟩
    · exact quarters_foldl_dget sr ss sp n versions quarters q _ inner hq hndq h1
    · rw [version_update_foldl_dget sr ss sp n q versions inner v hndv]
      simp only [hv, if_true, h2, List.range_succ, List.map_append, List.map_cons,
        List.map_nil, Option.getD_some]

/-! ### Price-sampler invocation log -/

theorem mem_price_calls (quarters versions : List String)
    (ss : Nat → String → Dict ℚ) (n t : Nat) (q v : String) :
    (t, q, v) ∈ price_calls quarters versions ss n ↔
      t < n ∧ q ∈ quarters ∧ v ∈ versions ∧ 0 < dgetD (ss t q) v 0 := by
  simp only [price_calls, List.mem_flatMap, List.mem_map, List.mem_filter,
    List.mem_range, Prod.mk.injEq, decide_eq_true_eq]
  constructor
  · rintro ⟨t1, ht1, q1, hq1, v1, ⟨hv1, hpos⟩, rfl, rfl, rfl⟩
    exact ⟨ht1, hq1, hv1, hpos⟩
  · rintro ⟨ht, hq, hv, hpos⟩
    exact ⟨t, ht, q, hq, v, ⟨hv, hpos⟩, rfl, rfl, rfl⟩

/-! ### Arithmetic helpers -/

theorem list_sum_pos_of_exists_pos (l : List ℚ) (h0 : ∀ x ∈ l, 0 ≤ x)
    (h1 : ∃ x ∈ l, 0 < x) : 0 < l.sum := by
  induction l with
  | nil => obtain ⟨x, hx, _⟩ := h1; cases hx
  | cons a l ih =>
    simp only [List.sum_cons]
    obtain ⟨x, hx, hxpos⟩ := h1
    rcases List.mem_cons.mp hx with rfl | hx2
    · have hrest : 0 ≤ l.sum := List.sum_nonneg (fun y hy => h0 y (List.mem_cons_of_mem _ hy))
      linarith
    · have ha : 0 ≤ a := h0 a (List.mem_cons_self _ _)
      have := ih (fun y hy => h0 y (List.mem_cons_of_mem _ hy)) ⟨x, hx2, hxpos⟩
      linarith

theorem optionMap_some {α β : Type} (l : List α) (f : α → β) :
    optionMap (fun a => some (f a)) l = some (l.map f) := by
  induction l with
  | nil => rfl
  | cons a l ih => simp [optionMap, ih]

theorem list_sum_map_div (l : List ℚ) (T : ℚ) :
    (l.map (fun x => x / T)).sum = l.sum / T := by
  induction l with
  | nil => simp
  | cons a l ih => simp [ih, add_div]

theorem list_getD_map_range (f : Nat → ℚ) (n t : Nat) (ht : t < n) :
    ((List.range n).map f).getD t 0 = f t := by
  rw [List.getD_eq_getElem?_getD, List.getElem?_map, List.getElem?_range ht]
  rfl

/-! ### Sorting and percentile helpers -/

theorem insort_length (x : ℚ) (l : List ℚ) : (insort x l).length = l.length + 1 := by
  induction l with
  | nil => rfl
  | cons y ys ih =>
    by_cases h : x ≤ y <;> simp [insort, h, ih]

theorem sortQ_length (l : List ℚ) : (sortQ l).length = l.length := by
  induction l with
  | nil => rfl
  | cons a l ih =>
    show (insort a (sortQ l)).length = l.length + 1
    rw [insort_length, ih]

theorem mem_insort (x y : ℚ) (l : List ℚ) (h : y ∈ insort x l) : y = x ∨ y ∈ l := by
  induction l with
  | nil => simpa [insort] using h
  | cons z zs ih =>
    by_cases hz : x ≤ z
    · simpa [insort, hz] using h
    · rcases (by simpa [insort, hz] using h : y = z ∨ y ∈ insort x zs) with h1 | h1
      · exact Or.inr (by simp [h1])
      · rcases ih h1 with h2 | h2
        · exact Or.inl h2
        · exact Or.inr (by simp [h2])

theorem sortQ_all_eq (l : List ℚ) (v : ℚ) (h : ∀ x ∈ l, x = v) :
    ∀ x ∈ sortQ l, x = v := by
  induction l with
  | nil => simp [sortQ]
  | cons a l ih =>
    intro x hx
    rcases mem_insort a x (sortQ l) hx with h1 | h1
    · exact h1 ▸ h a (List.mem_cons_self _ _)
    · exact ih (fun y hy => h y (List.mem_cons_of_mem _ hy)) x h1

theorem getD_all_eq (l : List ℚ) (v : ℚ) (i : Nat) (hi : i < l.length)
    (h : ∀ x ∈ l, x = v) : l.getD i 0 = v := by
  induction l generalizing i with
  | nil => cases hi
  | cons a l ih =>
    cases i with
    | zero => simpa using h a (List.mem_cons_self _ _)
    | succ i =>
      rw [List.getD_cons_succ]
      exact ih i (by simpa using hi) (fun y hy => h y (List.mem_cons_of_mem _ hy))

theorem np_percentile_const (samples : List ℚ) (p v : ℚ) (hne : samples ≠ [])
    (hp0 : 0 ≤ p) (hp1 : p ≤ 100) (hconst : ∀ x ∈ samples, x = v) :
    np_percentile samples p = some v := by
  obtain ⟨a, l, rfl⟩ := List.exists_cons_of_ne_nil hne
  have hn1 : 1 ≤ (a :: l).length := by simp
  have hnq : (0 : ℚ) ≤ ((a :: l).length : ℚ) - 1 := by
    have : (1 : ℚ) ≤ ((a :: l).length : ℚ) := by exact_mod_cast hn1
    linarith
  set h := p * (((a :: l).length : ℚ) - 1) / 100 with hh
  have h0 : 0 ≤ h := by
    apply div_nonneg (mul_nonneg hp0 hnq)
    norm_num
  have hub : h ≤ ((a :: l).length : ℚ) - 1 := by
    rw [hh, div_le_iff₀ (by norm_num : (0:ℚ) < 100)]
    have := mul_le_mul_of_nonneg_right hp1 hnq
    linarith [this]
  have hflub : ⌊h⌋ ≤ ((a :: l).length : ℤ) - 1 := by
    have h1 : ⌊h⌋ ≤ ⌊((a :: l).length : ℚ) - 1⌋ := Int.floor_le_floor hub
    have h2 : (((a :: l).length : ℚ) - 1) = ((((a :: l).length : ℤ) - 1 : ℤ) : ℚ) := by
      push_cast; ring
    rw [h2, Int.floor_intCast] at h1
    exact h1
  have hfl0 : 0 ≤ ⌊h⌋ := Int.floor_nonneg.mpr h0
  have hclub : ⌈h⌉ ≤ ((a :: l).length : ℤ) - 1 := by
    rw [Int.ceil_le]
    have h2 : ((((a :: l).length : ℤ) - 1 : ℤ) : ℚ) = (((a :: l).length : ℚ) - 1) := by
      push_cast; ring
    rw [h2]
    exact hub
  have hlen : (sortQ (a :: l)).length = (a :: l).length := sortQ_length _
  have hflt : Int.toNat ⌊h⌋ < (sortQ (a :: l)).length := by
    rw [hlen]; omega
  have hclt : Int.toNat ⌈h⌉ < (sortQ (a :: l)).length := by
    have hc0 : 0 ≤ ⌈h⌉ := Int.ceil_nonneg h0
    rw [hlen]; omega
  have hs := sortQ_all_eq (a :: l) v hconst
  simp only [np_percentile]
  rw [getD_all_eq _ v _ hflt hs, getD_all_eq _ v _ hclt hs]
  ring_nf

/-- Each requested percentile appears in the `get_percentiles` output with
the corresponding `np_percentile` value. -/
theorem get_percentiles_mem (samples ps : List ℚ) (p : ℚ) (hp : p ∈ ps) :
    (p, np_percentile samples p) ∈ get_percentiles samples ps :=
  List.mem_map.mpr ⟨p, hp, rfl⟩

/-! ### The summary layer's Total accumulator -/

theorem optionFold_row_total (fmt : ℚ → String) (n : Nat) (inner : Dict (List ℚ))
    (cs : List String) :
    ∀ (acc out : List ℚ × List (String × String)),
      optionFold
        (fun (acc : List ℚ × List (String × String)) chip_type =>
          (dget inner chip_type).bind (fun arr =>
            if arr.length = n then
              let total := List.zipWith (fun a b => a + b) acc.1 arr
              if 0 < arr.sum then
                (np_percentile arr 5).bind (fun p5 =>
                (np_percentile arr 50).bind (fun p50 =>
                (np_percentile arr 95).bind (fun p95 =>
                some (total, acc.2 ++ [(chip_type, summary_cell fmt p50 p5 p95)]))))
              else
                some (total, acc.2 ++ [(chip_type, "-")])
            else none)) acc cs = some out →
      out.1 = cs.foldl
        (fun tot c => List.zipWith (fun a b => a + b) tot ((dget inner c).getD []))
        acc.1 := by
  induction cs with
  | nil =>
    intro acc out hout
    simp only [optionFold] at hout
    cases hout
    simp
  | cons c cs ih =>
    intro acc out hout
    simp only [optionFold] at hout
    cases harr : dget inner c with
    | none => rw [harr] at hout; simp at hout
    | some arr =>
      rw [harr] at hout
      simp only [Option.some_bind] at hout
      by_cases hlen : arr.length = n
      · simp only [if_pos hlen] at hout
        by_cases hsum : 0 < arr.sum
        · simp only [if_pos hsum] at hout
          cases h5 : np_percentile arr 5 with
          | none => rw [h5] at hout; simp at hout
          | some p5 =>
            rw [h5] at hout
            simp only [Option.some_bind] at hout
            cases h50 : np_percentile arr 50 with
            | none => rw [h50] at hout; simp at hout
            | some p50 =>
              rw [h50] at hout
              simp only [Option.some_bind] at hout
              cases h95 : np_percentile arr 95 with
              | none => rw [h95] at hout; simp at hout
              | some p95 =>
                rw [h95] at hout
                simp only [Option.some_bind] at hout
                have := ih _ _ hout
                simp only [List.foldl_cons, harr, Option.getD_some]
                simpa using this
        · simp only [if_neg hsum] at hout
          simp only [Option.some_bind] at hout
          have := ih _ _ hout
          simp only [List.foldl_cons, harr, Option.getD_some]
          simpa using this
      · rw [if_neg hlen] at hout
        simp at hout

theorem row_for_quarter_total (fmt : ℚ → String) (cs : List String) (n : Nat)
    (inner : Dict (List ℚ)) (q : String) (row : SummaryRow)
    (hrow : row_for_quarter fmt cs n inner q = some row) :
    ∃ p5 p50 p95,
      np_percentile (elementwise_total inner cs n) 5 = some p5 ∧
      np_percentile (elementwise_total inner cs n) 50 = some p50 ∧
      np_percentile (elementwise_total inner cs n) 95 = some p95 ∧
      row.total = summary_cell fmt p50 p5 p95 := by
  simp only [row_for_quarter] at hrow
  cases hacc : optionFold
      (fun (acc : List ℚ × List (String × String)) chip_type =>
        (dget inner chip_type).bind (fun arr =>
          if arr.length = n then
            let total := List.zipWith (fun a b => a + b) acc.1 arr
            if 0 < arr.sum then
              (np_percentile arr 5).bind (fun p5 =>
              (np_percentile arr 50).bind (fun p50 =>
              (np_percentile arr 95).bind (fun p95 =>
              some (total, acc.2 ++ [(chip_type, summary_cell fmt p50 p5 p95)]))))
            else
              some (total, acc.2 ++ [(chip_type, "-")])
          else none)) (List.replicate n 0, []) cs with
  | none => rw [hacc] at hrow; simp at hrow
  | some acc =>
    rw [hacc] at hrow
    simp only [Option.some_bind] at hrow
    have htot : acc.1 = elementwise_total inner cs n := by
      have := optionFold_row_total fmt n inner cs _ _ hacc
      simpa [elementwise_total] using this
    rw [htot] at hrow
    cases h5 : np_percentile (elementwise_total inner cs n) 5 with
    | none => rw [h5] at hrow; simp at hrow
    | some p5 =>
      rw [h5] at hrow
      simp only [Option.some_bind] at hrow
      cases h50 : np_percentile (elementwise_total inner cs n) 50 with
      | none => rw [h50] at hrow; simp at hrow
      | some p50 =>
        rw [h50] at hrow
        simp only [Option.some_bind] at hrow
        cases h95 : np_percentile (elementwise_total inner cs n) 95 with
        | none => rw [h95] at hrow; simp at hrow
        | some p95 =>
          rw [h95] at hrow
          simp only [Option.some_bind, Option.some.injEq] at hrow
          exact ⟨p5, p50, p95, rfl, rfl, rfl, by rw [← hrow]⟩

/-! ### Claims -/

/-- C1: with one quarter "Q1", versions "A" and "B", deterministic callbacks
revenue = 1000, shares = {A: 0.6, B: 0.4}, price(A) = 10, price(B) = 20 and a
single trial, the engine returns Result["Q1"]["A"] = [60] and
Result["Q1"]["B"] = [20]. -/
theorem c1_degenerate_scenario :
    dget2 (estimate_chip_sales ["Q1"] ["A", "B"]
      (fun _ _ => 1000)
      (fun _ _ => [("A", 3/5), ("B", 2/5)])
      (fun _ _ v => if v = "A" then 10 else 20)
      1) "Q1" "A" = some [60] ∧
    dget2 (estimate_chip_sales ["Q1"] ["A", "B"]
      (fun _ _ => 1000)
      (fun _ _ => [("A", 3/5), ("B", 2/5)])
      (fun _ _ v => if v = "A" then 10 else 20)
      1) "Q1" "B" = some [20] := by
  have hAB : ¬("A" : String) = "B" := by decide
  have hBA : ¬("B" : String) = "A" := by decide
  constructor <;>
    norm_num [estimate_chip_sales, dget2, dinit, dget, dgetD, dset, List.range_succ,
      hAB, hBA]

/-- C2 counterexample: with the duplicated quarter list ["Q1", "Q1"], one
version and one trial, the cell "Q1"/"A" receives two samples, not
n_samples = 1: the claim fails for quarter lists with repeated entries,
because the result dict collapses the duplicate key but the trial loop
appends once per occurrence. -/
theorem c2_duplicate_quarter_counterexample :
    dget2 (estimate_chip_sales ["Q1", "Q1"] ["A"]
      (fun _ _ => 1) (fun _ _ => [("A", 1)]) (fun _ _ _ => 1) 1) "Q1" "A"
      = some [1, 1] ∧ ([1, 1] : List ℚ).length ≠ 1 := by
  constructor
  · norm_num [estimate_chip_sales, dget2, dinit, dget, dgetD, dset, List.range_succ]
  · simp

/-- C2 (amended: quarters and versions lists without duplicates): the table
returned by estimate_chip_sales has an entry for every declared
(quarter, version) pair, and every cell holds exactly n_samples samples. -/
theorem c2_table_fully_populated (quarters versions : List String)
    (sr : Nat → String → ℚ) (ss : Nat → String → Dict ℚ)
    (sp : Nat → String → String → ℚ) (n : Nat)
    (hndq : quarters.Nodup) (hndv : versions.Nodup)
    (q v : String) (hq : q ∈ quarters) (hv : v ∈ versions) :
    ∃ cell, dget2 (estimate_chip_sales quarters versions sr ss sp n) q v = some cell ∧
      cell.length = n :=
  ⟨_, estimate_chip_sales_cell quarters versions sr ss sp n q v hq hv hndq hndv, by simp⟩

/-- Witness for C2's amended theorem at a concrete input. -/
theorem c2_table_fully_populated_witness :
    ∃ cell, dget2 (estimate_chip_sales ["Q1"] ["A"]
      (fun _ _ => 1) (fun _ _ => [("A", 1)]) (fun _ _ _ => 1) 2) "Q1" "A" = some cell ∧
      cell.length = 2 :=
  c2_table_fully_populated ["Q1"] ["A"] (fun _ _ => 1) (fun _ _ => [("A", 1)])
    (fun _ _ _ => 1) 2 (by simp) (by simp) "Q1" "A" (by simp) (by simp)

/-- C3: when the share drawn for (trial, quarter, version) is exactly 0
(also when the version is absent, since the lookup defaults to 0), the
engine records 0 for that trial without invoking the price sampler; if the
share is 0 in every trial, the cell is the constant-zero list of length
n_samples. -/
theorem c3_zero_share_short_circuit (quarters versions : List String)
    (sr : Nat → String → ℚ) (ss : Nat → String → Dict ℚ)
    (sp : Nat → String → String → ℚ) (n : Nat) (q v : String)
    (hndq : quarters.Nodup) (hndv : versions.Nodup)
    (hq : q ∈ quarters) (hv : v ∈ versions) :
    (∀ t, t < n → dgetD (ss t q) v 0 = 0 →
      (t, q, v) ∉ price_calls quarters versions ss n ∧
      ∃ cell, dget2 (estimate_chip_sales quarters versions sr ss sp n) q v = some cell ∧
        cell.getD t 0 = 0) ∧
    ((∀ t, t < n → dgetD (ss t q) v 0 = 0) →
      dget2 (estimate_chip_sales quarters versions sr ss sp n) q v =
        some (List.replicate n 0)) := by
  have hcell := estimate_chip_sales_cell quarters versions sr ss sp n q v hq hv hndq hndv
  constructor
  · intro t ht hz
    refine ⟨?_, ⟨_, hcell, ?_⟩⟩
    · rw [mem_price_calls]
      rintro ⟨-, -, -, hpos⟩
      rw [hz] at hpos
      exact lt_irrefl 0 hpos
    · rw [list_getD_map_range _ n t ht]
      simp [chip_value, hz]
  · intro hz
    rw [hcell]
    congr 1
    refine List.eq_replicate_iff.mpr ⟨by simp, ?_⟩
    intro b hb
    obtain ⟨t, ht, rfl⟩ := List.mem_map.mp hb
    have ht2 : t < n := List.mem_range.mp ht
    simp [chip_value, hz t ht2]

/-- Witness for C3 at a concrete input: version "B" has share 0. -/
theorem c3_zero_share_short_circuit_witness :
    (0, "Q1", "B") ∉ price_calls ["Q1"] ["A", "B"] (fun _ _ => [("A", 1)]) 1 ∧
    dget2 (estimate_chip_sales ["Q1"] ["A", "B"]
      (fun _ _ => 1) (fun _ _ => [("A", 1)]) (fun _ _ _ => 1) 1) "Q1" "B" =
      some (List.replicate 1 0) := by
  have h := c3_zero_share_short_circuit ["Q1"] ["A", "B"]
    (fun _ _ => 1) (fun _ _ => [("A", 1)]) (fun _ _ _ => 1) 1 "Q1" "B"
    (by simp) (by simp) (by simp) (by simp)
  exact ⟨(h.1 0 (by norm_num) (by simp [dgetD, dget])).1,
    h.2 (fun t ht => by simp [dgetD, dget])⟩

/-- C4: for a non-empty map of non-negative weights with one strictly
positive, normalize_shares divides each weight by the total, keeps the
keys, and the results sum to exactly 1; in particular
normalize_shares({A: 3, B: 1}) = {A: 0.75, B: 0.25}. -/
theorem c4_normalize_shares_correct (raw : Dict ℚ)
    (hnn : ∀ kv ∈ raw, 0 ≤ kv.2) (hpos : ∃ kv ∈ raw, 0 < kv.2) :
    normalize_shares raw =
      some (raw.map (fun kv => (kv.1, kv.2 / (raw.map (fun kv => kv.2)).sum))) ∧
    (raw.map (fun kv => kv.2 / (raw.map (fun kv => kv.2)).sum)).sum = 1 ∧
    normalize_shares [("A", 3), ("B", 1)] = some [("A", 3/4), ("B", 1/4)] := by
  have hT : 0 < (raw.map (fun kv => kv.2)).sum := by
    apply list_sum_pos_of_exists_pos
    · intro x hx
      obtain ⟨kv, hkv, rfl⟩ := List.mem_map.mp hx
      exact hnn kv hkv
    · obtain ⟨kv, hkv, hk⟩ := hpos
      exact ⟨kv.2, List.mem_map.mpr ⟨kv, hkv, rfl⟩, hk⟩
  refine ⟨?_, ?_, ?_⟩
  · simp only [normalize_shares, hT.ne', if_false]
    exact optionMap_some raw _
  · have h1 : raw.map (fun kv => kv.2 / (raw.map (fun kv => kv.2)).sum) =
        (raw.map (fun kv => kv.2)).map (fun x => x / (raw.map (fun kv => kv.2)).sum) := by
      rw [List.map_map]
      rfl
    rw [h1, list_sum_map_div]
    exact div_self hT.ne'
  · norm_num [normalize_shares, optionMap]

/-- Witness for C4 at the concrete input {A: 3, B: 1}. -/
theorem c4_normalize_shares_correct_witness :
    normalize_shares [("A", 3), ("B", 1)] = some [("A", 3/4), ("B", 1/4)] ∧
    ([("A", (3:ℚ)), ("B", 1)].map
      (fun kv => kv.2 / ([("A", (3:ℚ)), ("B", 1)].map (fun kv => kv.2)).sum)).sum = 1 := by
  have h := c4_normalize_shares_correct [("A", 3), ("B", 1)]
    (by norm_num) ⟨("A", 3), by norm_num⟩
  exact ⟨h.2.2, h.2.1⟩

/-- C5 counterexample: the empty mapping has weights summing to 0, yet
normalize_shares returns it unchanged (no error, no NaN/Inf): Python's
loop performs no division for an empty dict.  The claim fails for the
empty mapping. -/
theorem c5_empty_map_counterexample :
    (([] : Dict ℚ).map (fun kv => kv.2)).sum = 0 ∧
    normalize_shares ([] : Dict ℚ) = some [] := by
  exact ⟨rfl, rfl⟩

/-- C5 (amended: non-empty mappings): for every non-empty mapping whose
weights sum to 0, normalize_shares fails (ZeroDivisionError, modelled as
none) rather than returning a normalized mapping. -/
theorem c5_zero_total_fails (raw : Dict ℚ) (hne : raw ≠ [])
    (hsum : (raw.map (fun kv => kv.2)).sum = 0) :
    normalize_shares raw = none := by
  cases raw with
  | nil => exact absurd rfl hne
  | cons kv rest =>
    simp only [normalize_shares]
    rw [hsum]
    simp [optionMap]

/-- Witness for C5's amended theorem at the concrete input {A: 0}. -/
theorem c5_zero_total_fails_witness : normalize_shares [("A", 0)] = none :=
  c5_zero_total_fails [("A", 0)] (by simp) (by simp)

/-- C6: in summarize_quarterly_by_chip each quarter's Total cell comes from
summing the variant arrays elementwise and only then taking percentiles of
the summed array; and the two orders of operations differ: for the table
{Q1: {A: [0,1,10], B: [10,1,0]}} the Total's p50 is 10 while the
per-variant p50s sum to 1 + 1 = 2. -/
theorem c6_total_after_summation (fmt : ℚ → String) (chip_types : List String)
    (n : Nat) (inner : Dict (List ℚ)) (q : String) :
    (∀ row, row_for_quarter fmt chip_types n inner q = some row →
      ∃ p5 p50 p95,
        np_percentile (elementwise_total inner chip_types n) 5 = some p5 ∧
        np_percentile (elementwise_total inner chip_types n) 50 = some p50 ∧
        np_percentile (elementwise_total inner chip_types n) 95 = some p95 ∧
        row.total = summary_cell fmt p50 p5 p95) ∧
    (np_percentile
        (elementwise_total [("A", [0, 1, 10]), ("B", [10, 1, 0])] ["A", "B"] 3) 50
      = some 10 ∧
     np_percentile [0, 1, 10] 50 = some 1 ∧
     np_percentile [10, 1, 0] 50 = some 1 ∧
     (10 : ℚ) ≠ 1 + 1) := by
  constructor
  · intro row hrow
    exact row_for_quarter_total fmt chip_types n inner q row hrow
  · have hAB : ¬("A" : String) = "B" := by decide
    have hBA : ¬("B" : String) = "A" := by decide
    have htot : elementwise_total [("A", [(0:ℚ), 1, 10]), ("B", [10, 1, 0])] ["A", "B"] 3
        = [10, 2, 10] := by
      norm_num [elementwise_total, dget, hAB, hBA, List.replicate, List.zipWith]
    refine ⟨?_, ?_, ?_, by norm_num⟩
    · rw [htot]; norm_num [np_percentile, sortQ, insort]
    · norm_num [np_percentile, sortQ, insort]
    · norm_num [np_percentile, sortQ, insort]

/-- Witness for C6 at a concrete input: a one-quarter, one-chip table. -/
theorem c6_total_after_summation_witness :
    ∃ p5 p50 p95,
      np_percentile (elementwise_total [("A", [(1:ℚ)])] ["A"] 1) 5 = some p5 ∧
      np_percentile (elementwise_total [("A", [(1:ℚ)])] ["A"] 1) 50 = some p50 ∧
      np_percentile (elementwise_total [("A", [(1:ℚ)])] ["A"] 1) 95 = some p95 ∧
      (SummaryRow.mk "Q1" [("A", summary_cell (fun _ => "v") 1 1 1)]
        (summary_cell (fun _ => "v") 1 1 1)).total = summary_cell (fun _ => "v") p50 p5 p95 :=
  (c6_total_after_summation (fun _ => "v") ["A"] 1 [("A", [1])] "Q1").1
    ⟨"Q1", [("A", summary_cell (fun _ => "v") 1 1 1)], summary_cell (fun _ => "v") 1 1 1⟩
    (by norm_num [row_for_quarter, optionFold, dget, np_percentile, sortQ, insort,
      List.replicate, List.zipWith])

/-- C7: get_percentiles computes, at every requested percentile p in
[0, 100], the linear-interpolation order statistic np_percentile; applied
to a constant sequence of value v it yields v at every such percentile. -/
theorem c7_percentile_aggregator (samples ps : List ℚ) (p v : ℚ)
    (hne : samples ≠ []) (hp0 : 0 ≤ p) (hp1 : p ≤ 100)
    (hconst : ∀ x ∈ samples, x = v) :
    np_percentile samples p = some v ∧
    (p ∈ ps → (p, some v) ∈ get_percentiles samples ps) := by
  have h := np_percentile_const samples p v hne hp0 hp1 hconst
  refine ⟨h, fun hp => ?_⟩
  have hm := get_percentiles_mem samples ps p hp
  rwa [h] at hm

/-- Witness for C7 at the constant sequence [5, 5] and percentile 50. -/
theorem c7_percentile_aggregator_witness :
    np_percentile [5, 5] 50 = some 5 ∧
    ((50 : ℚ) ∈ [(50 : ℚ)] → ((50 : ℚ), some (5 : ℚ)) ∈ get_percentiles [5, 5] [50]) :=
  c7_percentile_aggregator [5, 5] [50] 50 5 (by simp) (by norm_num) (by norm_num)
    (by intro x hx; simpa using hx)

/-- C8: compute_h100_equivalents fails (KeyError) when some version in the
counts is absent from chip_specs, and otherwise maps each version's count
to count * (chip_specs[version].tops / h100_tops). -/
theorem c8_spec_lookup (chip_counts : Dict ℚ) (chip_specs : Dict ChipSpec)
    (h100_tops : ℚ) :
    ((∃ kv ∈ chip_counts, dget chip_specs kv.1 = none) →
      compute_h100_equivalents chip_counts chip_specs h100_tops = none) ∧
    ((∀ kv ∈ chip_counts, (dget chip_specs kv.1).isSome) →
      compute_h100_equivalents chip_counts chip_specs h100_tops =
        some (chip_counts.map (fun kv =>
          (kv.1, kv.2 * (((dget chip_specs kv.1).getD ⟨0⟩).tops / h100_tops))))) := by
  constructor
  · intro hex
    induction chip_counts with
    | nil => obtain ⟨kv, hkv, -⟩ := hex; cases hkv
    | cons kv rest ih =>
      obtain ⟨kv1, hkv1, hnone⟩ := hex
      simp only [compute_h100_equivalents, optionMap]
      rcases List.mem_cons.mp hkv1 with rfl | hmem
      · rw [hnone]; rfl
      · cases hspec : dget chip_specs kv.1 with
        | none => simp [hspec]
        | some spec =>
          have hrest := ih ⟨kv1, hmem, hnone⟩
          simp only [compute_h100_equivalents] at hrest
          simp [hspec, hrest]
  · intro hall
    induction chip_counts with
    | nil => rfl
    | cons kv rest ih =>
      have hkv := hall kv (List.mem_cons_self _ _)
      obtain ⟨spec, hspec⟩ := Option.isSome_iff_exists.mp hkv
      have hrest := ih (fun kv1 h1 => hall kv1 (List.mem_cons_of_mem _ h1))
      simp only [compute_h100_equivalents] at hrest
      simp only [compute_h100_equivalents, optionMap, List.map_cons]
      simp [hspec, hrest]

/-- Witness for C8: a missing spec fails, a present spec converts. -/
theorem c8_spec_lookup_witness :
    compute_h100_equivalents [("B", 1)] [("A", ⟨3958⟩)] 1979 = none ∧
    compute_h100_equivalents [("A", 2)] [("A", ⟨3958⟩)] 1979 =
      some [("A", 2 * ((3958 : ℚ) / 1979))] := by
  constructor
  · exact (c8_spec_lookup [("B", 1)] [("A", ⟨3958⟩)] 1979).1
      ⟨("B", 1), by simp, by simp [dget]⟩
  · have h := (c8_spec_lookup [("A", 2)] [("A", ⟨3958⟩)] 1979).2
      (by intro kv hkv; simp at hkv; rw [hkv]; simp [dget])
    simpa [dget] using h

/-- C9: the converter is linear in the counts: scaling every count by k and
converting equals converting and then scaling every converted value by k. -/
theorem c9_converter_linear (chip_counts : Dict ℚ) (chip_specs : Dict ChipSpec)
    (h100_tops k : ℚ)
    (hcov : ∀ kv ∈ chip_counts, (dget chip_specs kv.1).isSome) :
    ∃ out, compute_h100_equivalents chip_counts chip_specs h100_tops = some out ∧
      compute_h100_equivalents (chip_counts.map (fun kv => (kv.1, k * kv.2)))
          chip_specs h100_tops
        = some (out.map (fun kv => (kv.1, k * kv.2))) := by
  induction chip_counts with
  | nil => exact ⟨[], rfl, rfl⟩
  | cons kv rest ih =>
    have hkv := hcov kv (List.mem_cons_self _ _)
    obtain ⟨spec, hspec⟩ := Option.isSome_iff_exists.mp hkv
    obtain ⟨out, h1, h2⟩ := ih (fun kv1 h1 => hcov kv1 (List.mem_cons_of_mem _ h1))
    refine ⟨(kv.1, kv.2 * (spec.tops / h100_tops)) :: out, ?_, ?_⟩
    · simp only [compute_h100_equivalents, optionMap] at h1 ⊢
      simp [hspec, h1]
    · simp only [compute_h100_equivalents, optionMap, List.map_cons] at h2 ⊢
      simp [hspec, h2, mul_assoc]

/-- Witness for C9 at the concrete input {A: 2} with k = 5. -/
theorem c9_converter_linear_witness :
    ∃ out, compute_h100_equivalents [("A", 2)] [("A", ⟨3958⟩)] 1979 = some out ∧
      compute_h100_equivalents ([("A", (2:ℚ))].map (fun kv => (kv.1, 5 * kv.2)))
          [("A", ⟨3958⟩)] 1979
        = some (out.map (fun kv => (kv.1, 5 * kv.2))) :=
  c9_converter_linear [("A", 2)] [("A", ⟨3958⟩)] 1979 5
    (by intro kv hkv; simp at hkv; rw [hkv]; simp [dget])

/-- C10: a strictly negative drawn share takes the same path as a zero
share: the engine records 0 for that trial and does not invoke the price
sampler, because the guard is `share > 0`. -/
theorem c10_negative_share_like_zero (quarters versions : List String)
    (sr : Nat → String → ℚ) (ss : Nat → String → Dict ℚ)
    (sp : Nat → String → String → ℚ) (n t : Nat) (q v : String)
    (hndq : quarters.Nodup) (hndv : versions.Nodup)
    (hq : q ∈ quarters) (hv : v ∈ versions) (ht : t < n)
    (hneg : dgetD (ss t q) v 0 < 0) :
    (∃ cell, dget2 (estimate_chip_sales quarters versions sr ss sp n) q v = some cell ∧
      cell.getD t 0 = 0) ∧
    (t, q, v) ∉ price_calls quarters versions ss n := by
  have hcell := estimate_chip_sales_cell quarters versions sr ss sp n q v hq hv hndq hndv
  constructor
  · refine ⟨_, hcell, ?_⟩
    rw [list_getD_map_range _ n t ht]
    simp only [chip_value]
    rw [if_neg (not_lt.mpr hneg.le)]
  · rw [mem_price_calls]
    rintro ⟨-, -, -, hpos⟩
    exact absurd hpos (not_lt.mpr hneg.le)

/-- Witness for C10: share -1 for the only version. -/
theorem c10_negative_share_like_zero_witness :
    (∃ cell, dget2 (estimate_chip_sales ["Q1"] ["A"]
      (fun _ _ => 1) (fun _ _ => [("A", -1)]) (fun _ _ _ => 1) 1) "Q1" "A" = some cell ∧
      cell.getD 0 0 = 0) ∧
    (0, "Q1", "A") ∉ price_calls ["Q1"] ["A"] (fun _ _ => [("A", -1)]) 1 :=
  c10_negative_share_like_zero ["Q1"] ["A"] (fun _ _ => 1) (fun _ _ => [("A", -1)])
    (fun _ _ _ => 1) 1 0 "Q1" "A" (by simp) (by simp) (by simp) (by simp) (by norm_num)
    (by norm_num [dgetD, dget])
